import Mathlib

/-!
Verification development for the study-assistant response post-processing
pipeline and the practice-question JSON extraction logic.

The TypeScript sources are embedded shallowly over `List Char`:
  * `processResponse` (src/server/ai.ts) and `processResponse2`
    (the list-detecting variant in src/unnamed/part_000),
  * the practice-question extraction of the `POST /api/practice` handler
    (src/server/routes.ts, second variant), modelled as `extractQuestions`.

JavaScript regular-expression replaces are embedded operationally: each
regex used by the source is small enough that its leftmost/greedy
backtracking behaviour can be reproduced by a direct recursive scanner.
`JSON.parse` is embedded by a recursive-descent parser for the JSON
grammar (numbers are kept as lexemes; duplicate object keys are kept in
order, a difference from JavaScript objects that no input in this file
exercises).
-/

/-- JavaScript `\s` restricted to the ASCII whitespace characters
(space, tab, newline, carriage return, vertical tab, form feed);
also the character class used by `String.prototype.trim`. -/
def isJsWs (c : Char) : Bool :=
  c = ' ' || c = '\t' || c = '\n' || c = '\r' || c = '\x0b' || c = '\x0c'

/-- JavaScript regex word character (`\w`): ASCII letters, digits, underscore. -/
def isWordChar (c : Char) : Bool :=
  ('a' ≤ c && c ≤ 'z') || ('A' ≤ c && c ≤ 'Z') || ('0' ≤ c && c ≤ '9') || c = '_'

theorem length_dropWhile_le (p : Char → Bool) (l : List Char) :
    (l.dropWhile p).length ≤ l.length := by
  have h := congrArg List.length (List.takeWhile_append_dropWhile (p := p) (l := l))
  simp only [List.length_append] at h
  omega

/-! ### Newline collapsing: `.replace(/\n{4,}/g, "\n\n\n")` -/

/-- Scanner for `.replace(/\n{4,}/g, "\n\n\n")`: `n` is the length of
the newline run read so far; when the run ends (or at the end of the
input) a run of 4 or more is emitted as exactly three newlines, shorter
runs are emitted unchanged. -/
def collapseNLAux (n : Nat) : List Char → List Char
  | [] => List.replicate (min n 3) '\n'
  | c :: rest =>
    if c = '\n' then collapseNLAux (n + 1) rest
    else List.replicate (min n 3) '\n' ++ c :: collapseNLAux 0 rest

/-- `.replace(/\n{4,}/g, "\n\n\n")`: every maximal run of 4 or more
newlines is replaced by exactly three newlines; shorter runs are kept. -/
def collapseNL (l : List Char) : List Char := collapseNLAux 0 l

/-! ### Dollar delimiter rewriting:
`.replace(/\$([^$]+)\$/g, "\\($1\\)")` then
`.replace(/\$\$([^$]+)\$\$/g, "\\[$1\\]")` -/

/-- Scanner for `.replace(/\$([^$]+)\$/g, "\\($1\\)")`.  When `inside`
is false the scan is looking for an opening `$`; when true, `acc` holds
the (reversed) `$`-free content read since the opening `$`.  A closing
`$` with nonempty content completes a match (greedy `[^$]+` cannot cross
a `$`, so the first later `$` is the closer); `$$` with empty content
means the first `$` cannot match and the engine advances one character;
an unclosed opener at the end of input is emitted verbatim. -/
def dollarInlineAux (inside : Bool) (acc : List Char) : List Char → List Char
  | [] => if inside then '$' :: acc.reverse else []
  | c :: rest =>
    if inside then
      if c = '$' then
        if acc = [] then '$' :: dollarInlineAux true [] rest
        else '\\' :: '(' :: (acc.reverse ++ '\\' :: ')' :: dollarInlineAux false [] rest)
      else dollarInlineAux true (c :: acc) rest
    else
      if c = '$' then dollarInlineAux true [] rest
      else c :: dollarInlineAux false [] rest

/-- `.replace(/\$([^$]+)\$/g, "\\($1\\)")`. -/
def dollarInline (l : List Char) : List Char := dollarInlineAux false [] l

/-- Scanner for `.replace(/\$\$([^$]+)\$\$/g, "\\[$1\\]")`.  States:
0 = outside, 1 = one `$` read, 2 = `$$` opener read with reversed
content `acc`, 3 = `$$`, content and one closing `$` read.  In state 2
with empty content a further `$` makes the engine drop the oldest `$`
and keep `$$` as the candidate opener; in state 3 a non-`$` character
means the attempt fails and the consumed text is emitted verbatim, the
scan resuming right after it, as the JavaScript engine's one-character
advance does. -/
def dollarBlockAux (st : Nat) (acc : List Char) : List Char → List Char
  | [] =>
    match st with
    | 0 => []
    | 1 => ['$']
    | 2 => '$' :: '$' :: acc.reverse
    | _ => '$' :: '$' :: (acc.reverse ++ ['$'])
  | c :: rest =>
    match st with
    | 0 => if c = '$' then dollarBlockAux 1 [] rest else c :: dollarBlockAux 0 [] rest
    | 1 =>
      if c = '$' then dollarBlockAux 2 [] rest
      else '$' :: c :: dollarBlockAux 0 [] rest
    | 2 =>
      if c = '$' then
        if acc = [] then '$' :: dollarBlockAux 2 [] rest
        else dollarBlockAux 3 acc rest
      else dollarBlockAux 2 (c :: acc) rest
    | _ =>
      if c = '$' then
        '\\' :: '[' :: (acc.reverse ++ '\\' :: ']' :: dollarBlockAux 0 [] rest)
      else '$' :: '$' :: (acc.reverse ++ '$' :: c :: dollarBlockAux 0 [] rest)

/-- `.replace(/\$\$([^$]+)\$\$/g, "\\[$1\\]")`. -/
def dollarBlock (l : List Char) : List Char := dollarBlockAux 0 [] l

/-! ### Math vocabulary wrapping:
`.replace(/\b(sin|cos|tan|log|ln)\b/g, "\\($1\\)")` and
`.replace(/\b(π|theta|alpha|beta|gamma|delta)\b/g, "\\($1\\)")` -/

/-- Word-characterness of the character at one side of a position
(`none` = string edge, never a word character). -/
def optWord (o : Option Char) : Bool :=
  match o with
  | some c => isWordChar c
  | none => false

/-- JavaScript `\b` between two adjacent characters: exactly one side is
a word character. -/
def wordBoundary (a b : Option Char) : Bool :=
  optWord a != optWord b

/-- First alternative of the vocabulary group matching at the head of
`l` with the required `\b` on both sides (`prev` is the character before
the current position in the original string). -/
def tryWords (prev : Option Char) : List (List Char) → List Char → Option (List Char)
  | [], _ => none
  | w :: ws, l =>
    if w ≠ [] && w.isPrefixOf l
        && wordBoundary prev w.head?
        && wordBoundary w.getLast? (l.drop w.length).head? then
      some w
    else tryWords prev ws l

/-- One global `\b(word|…)\b` replace with `"\\($1\\)"`, scanning left
to right over the original string; `prev` is the previous character of
the original string (word boundaries are judged on the original text,
as `String.prototype.replace` does).  The fuel only bounds recursion
depth; since every step consumes at least one character, `l.length`
fuel is never exhausted. -/
def vocabReplaceF (words : List (List Char)) : Nat → Option Char → List Char → List Char
  | 0, _, l => l
  | _, _, [] => []
  | Nat.succ fuel, prev, c :: rest =>
    match tryWords prev words (c :: rest) with
    | some w =>
      '\\' :: '(' :: (w ++ '\\' :: ')' ::
        vocabReplaceF words fuel w.getLast? ((c :: rest).drop w.length))
    | none => c :: vocabReplaceF words fuel (some c) rest

/-- The function-name vocabulary `sin|cos|tan|log|ln` (alternation order
as in the source regex). -/
def funcWords : List (List Char) :=
  [['s','i','n'], ['c','o','s'], ['t','a','n'], ['l','o','g'], ['l','n']]

/-- The Greek/constant vocabulary `π|theta|alpha|beta|gamma|delta`. -/
def greekWords : List (List Char) :=
  [['π'], ['t','h','e','t','a'], ['a','l','p','h','a'], ['b','e','t','a'],
   ['g','a','m','m','a'], ['d','e','l','t','a']]

/-- `.replace(/\b(sin|cos|tan|log|ln)\b/g, "\\($1\\)")`. -/
def funcRepl (l : List Char) : List Char := vocabReplaceF funcWords l.length none l

/-- `.replace(/\b(π|theta|alpha|beta|gamma|delta)\b/g, "\\($1\\)")`. -/
def greekRepl (l : List Char) : List Char := vocabReplaceF greekWords l.length none l

/-- The text-normalisation stage of `processResponse`: newline collapsing,
dollar-delimiter rewriting (inline first, then block), then the two
vocabulary replaces, in source order. -/
def normalizeText (l : List Char) : List Char :=
  greekRepl (funcRepl (dollarBlock (dollarInline (collapseNL l))))

/-! ### Paragraph wrapping: `processed.split("\n\n").map(...).join("\n\n")` -/

/-- `String.prototype.split("\n\n")`: split at each non-overlapping
leftmost occurrence of two consecutive newlines. `splitNN "" = [""]`,
as in JavaScript. -/
def splitNN : List Char → List (List Char)
  | [] => [[]]
  | [c] => [[c]]
  | c1 :: c2 :: rest =>
    if c1 = '\n' ∧ c2 = '\n' then [] :: splitNN rest
    else
      match splitNN (c2 :: rest) with
      | s :: ss => (c1 :: s) :: ss
      | [] => [[c1]]

/-- `Array.prototype.join("\n\n")`. -/
def joinNN : List (List Char) → List Char
  | [] => []
  | q :: qs => q ++ (if qs = [] then [] else '\n' :: '\n' :: joinNN qs)

/-- `para.replace(/\n/g, "<br>")`. -/
def brRepl : List Char → List Char
  | [] => []
  | c :: rest => (if c = '\n' then ['<', 'b', 'r', '>'] else [c]) ++ brRepl rest

/-- `String.prototype.trim()`: strip leading and trailing whitespace. -/
def jsTrim (l : List Char) : List Char :=
  ((l.dropWhile isJsWs).reverse.dropWhile isJsWs).reverse

/-- One segment of the ai.ts paragraph wrapper:
`para.trim().startsWith("<") ? para : "<p>" + para.replace(/\n/g,"<br>") + "</p>"`. -/
def wrapSeg (p : List Char) : List Char :=
  if (jsTrim p).head? = some '<' then p
  else '<' :: 'p' :: '>' :: (brRepl p ++ ['<', '/', 'p', '>'])

/-- The ai.ts paragraph-wrapping step: split on `"\n\n"`, wrap each
segment, join with `"\n\n"`. -/
def wrapParagraphs (l : List Char) : List Char :=
  joinNN ((splitNN l).map wrapSeg)

/-- The block prefixes recognised by the part_000 variant:
`<ul`, `<ol`, `<div`, `<h`, `<table`, in source order. -/
def blockTags : List (List Char) :=
  [['<','u','l'], ['<','o','l'], ['<','d','i','v'], ['<','h'],
   ['<','t','a','b','l','e']]

/-- One segment of the part_000 paragraph wrapper: pass through only if
the trimmed segment starts with one of the five block prefixes. -/
def wrapSeg2 (p : List Char) : List Char :=
  if blockTags.any (fun t => t.isPrefixOf (jsTrim p)) then p
  else '<' :: 'p' :: '>' :: (brRepl p ++ ['<', '/', 'p', '>'])

/-- The part_000 paragraph-wrapping step. -/
def wrapParagraphs2 (l : List Char) : List Char :=
  joinNN ((splitNN l).map wrapSeg2)

/-- The full ai.ts `processResponse`: normalisation then paragraph
wrapping (src/server/ai.ts lines 151-176). -/
def processResponse (l : List Char) : List Char :=
  wrapParagraphs (normalizeText l)

/-! ### List detection (part_000 variant):
`processed.replace(/^(?:\s*[\*\-]\s+.+\n?)+$/gm, listBlock => ...)` -/

/-- One greedy iteration of the group `(?:\s*[\*\-]\s+.+\n?)`:
maximal `\s*`, a bullet character, maximal `\s+` (backtracking one
non-newline whitespace character into `.+` when nothing else follows),
maximal `.+`, optional `\n`.  Returns the consumed prefix and the rest. -/
def matchG (l : List Char) : Option (List Char × List Char) :=
  match l.dropWhile isJsWs with
  | b :: r2 =>
    if b = '*' || b = '-' then
      if r2.takeWhile isJsWs = [] then none
      else
        match r2.dropWhile isJsWs with
        | _ :: _ =>
          match (r2.dropWhile isJsWs).dropWhile (· ≠ '\n') with
          | '\n' :: r5 =>
            some (l.takeWhile isJsWs ++ b :: (r2.takeWhile isJsWs ++
              (r2.dropWhile isJsWs).takeWhile (· ≠ '\n') ++ ['\n']), r5)
          | _ =>
            some (l.takeWhile isJsWs ++ b :: (r2.takeWhile isJsWs ++
              (r2.dropWhile isJsWs).takeWhile (· ≠ '\n')),
              (r2.dropWhile isJsWs).dropWhile (· ≠ '\n'))
        | [] =>
          if (r2.takeWhile isJsWs).length ≥ 2 ∧
              (r2.takeWhile isJsWs).getLast? ≠ some '\n' then
            some (l.takeWhile isJsWs ++ b :: r2.takeWhile isJsWs, [])
          else none
    else none
  | [] => none

theorem dropWhile_head_not {p : Char → Bool} {l : List Char} {a : Char}
    {as : List Char} (h : l.dropWhile p = a :: as) : ¬ p a := by
  induction l with
  | nil => simp [List.dropWhile] at h
  | cons c cs ih =>
    by_cases hc : p c
    · rw [List.dropWhile_cons_of_pos hc] at h; exact ih h
    · rw [List.dropWhile_cons_of_neg hc] at h; cases h; exact hc

theorem matchG_rest_len {l m r : List Char} (h : matchG l = some (m, r)) :
    r.length + 3 ≤ l.length := by
  unfold matchG at h
  split at h
  case h_2 => exact absurd h (by simp)
  case h_1 b r2 heq =>
    have hlen := congrArg List.length (List.takeWhile_append_dropWhile (p := isJsWs) (l := l))
    rw [heq] at hlen
    simp only [List.length_append, List.length_cons] at hlen
    have hlen3 := congrArg List.length
      (List.takeWhile_append_dropWhile (p := isJsWs) (l := r2))
    simp only [List.length_append] at hlen3
    split at h
    · split at h
      · exact absurd h (by simp)
      · rename_i hwne
        have hw1 : 1 ≤ (r2.takeWhile isJsWs).length := by
          cases hq : r2.takeWhile isJsWs with
          | nil => exact absurd hq hwne
          | cons a as => simp
        split at h
        · -- r3 nonempty
          rename_i r3h r3t hr3
          rw [hr3] at hlen3
          have hlen4 := congrArg List.length
            (List.takeWhile_append_dropWhile (p := fun c => c ≠ '\n') (l := r3h :: r3t))
          simp only [List.length_append] at hlen4
          have hr3h : r3h ≠ '\n' := by
            intro hq
            have := dropWhile_head_not hr3
            rw [hq] at this
            exact this (by simp [isJsWs])
          have hcont : 1 ≤ ((r3h :: r3t).takeWhile (fun c => c ≠ '\n')).length := by
            rw [List.takeWhile_cons_of_pos (by simpa using hr3h)]
            simp
          rw [hr3] at h
          split at h
          · rename_i r5 hr4
            cases h
            rw [hr4] at hlen4
            simp only [List.length_cons] at hlen4 hlen3 ⊢
            omega
          · cases h
            have hr4le := length_dropWhile_le (fun c => c ≠ '\n') (r3h :: r3t)
            simp only [List.length_cons] at hr4le hlen3 hlen4 ⊢
            omega
        · -- r3 = [], EOS backtracking case
          rename_i hr3
          split at h
          · rename_i hcond
            cases h
            simp only [List.length_nil] at *
            omega
          · exact absurd h (by simp)
    · exact absurd h (by simp)

/-- Greedy `(?:…)+`: as many `matchG` iterations as possible.  By
`matchG_rest_len` each iteration consumes at least three characters, so
`l.length + 1` fuel is never exhausted. -/
def matchGPlusF : Nat → List Char → Option (List Char × List Char)
  | 0, _ => none
  | Nat.succ fuel, l =>
    match matchG l with
    | none => none
    | some (m, r) =>
      match matchGPlusF fuel r with
      | some (m2, r2) => some (m ++ m2, r2)
      | none => some (m, r)

/-- A full match of `^(?:\s*[\*\-]\s+.+\n?)+$` starting at the current
(line-start) position: greedy `+`, then the `m`-flag `$` (end of string
or just before a newline), giving back the final `\n?` when `$` fails
directly.  The last arm is unreachable (when `$` fails the last
iteration necessarily consumed a newline) but is mapped to `none`. -/
def matchListBlock (l : List Char) : Option (List Char × List Char) :=
  match matchGPlusF (l.length + 1) l with
  | none => none
  | some (m, r) =>
    if r = [] ∨ r.head? = some '\n' then some (m, r)
    else
      match m.getLast? with
      | some '\n' => some (m.dropLast, '\n' :: r)
      | _ => none

/-- Whether `.+` can start here after possibly extending `\s+` over
further (newline) whitespace: true as soon as a non-newline character is
reachable through whitespace. -/
def dotAfterWs : List Char → Bool
  | [] => false
  | c :: rest => if c ≠ '\n' then true else dotAfterWs rest

/-- Whether `\s+.+` matches a prefix of `r` (at least one whitespace
character, then at least one non-newline character, possibly taken back
from the whitespace run by backtracking). -/
def wsThenDot (r : List Char) : Bool :=
  match r with
  | c :: rest => isJsWs c && dotAfterWs rest
  | [] => false

/-- `/^\s*[\*\-]\s+.+/.test(line)`. -/
def bulletTest (l : List Char) : Bool :=
  match l.dropWhile isJsWs with
  | b :: r => (b = '*' || b = '-') && wsThenDot r
  | [] => false

/-- `line.replace(/^\s*[\*\-]\s+/, '')`: strip the bullet marker and the
greedy whitespace after it, or return the line unchanged if the pattern
does not match. -/
def bulletStrip (l : List Char) : List Char :=
  match l.dropWhile isJsWs with
  | b :: r =>
    if (b = '*' || b = '-') && r.takeWhile isJsWs ≠ [] then r.dropWhile isJsWs
    else l
  | [] => l

/-- `listBlock.split('\n')`. -/
def splitLines : List Char → List (List Char)
  | [] => [[]]
  | c :: rest =>
    if c = '\n' then [] :: splitLines rest
    else
      match splitLines rest with
      | s :: ss => (c :: s) :: ss
      | [] => [[c]]

/-- The replacement callback of the list-pattern replace: split the
matched block into lines, keep only valid bullet lines, map each to a
`<li>` and wrap the concatenation in `<ul>…</ul>`. -/
def listReplace (m : List Char) : List Char :=
  ['<','u','l','>'] ++
    (((splitLines m).filter bulletTest).map
      (fun line => ['<','l','i','>'] ++ bulletStrip line ++ ['<','/','l','i','>'])).flatten
    ++ ['<','/','u','l','>']

/-- The global, multiline scan of
`.replace(/^(?:\s*[\*\-]\s+.+\n?)+$/gm, …)`: a match may only start at a
line start (`atLS`); after a match the scan resumes right after the
consumed text. -/
def convertListsAux : Nat → Bool → List Char → List Char
  | 0, _, l => l
  | _, _, [] => []
  | Nat.succ fuel, atLS, c :: rest =>
    if atLS then
      match matchListBlock (c :: rest) with
      | some (m, r) =>
        listReplace m ++ convertListsAux fuel (m.getLast? == some '\n') r
      | none => c :: convertListsAux fuel (c == '\n') rest
    else c :: convertListsAux fuel (c == '\n') rest

/-- The list-detection step of the part_000 `processResponse`.  Every
step of the scan consumes at least one character, so `l.length` fuel is
never exhausted. -/
def convertLists (l : List Char) : List Char := convertListsAux l.length true l

/-- The full part_000 `processResponse`: normalisation, list detection,
then paragraph wrapping with the five-prefix block check
(src/unnamed/part_000 lines 273-319). -/
def processResponse2 (l : List Char) : List Char :=
  wrapParagraphs2 (convertLists (normalizeText l))

/-! ### Practice-question extraction (`POST /api/practice`,
src/server/routes.ts lines 252-349): a JSON value model and a
recursive-descent embedding of `JSON.parse`. -/

/-- JSON values as produced by `JSON.parse`.  Numbers keep their lexeme;
object members are kept in source order (duplicate keys, which
JavaScript would collapse, are kept — no input in this development has
any). -/
inductive Json where
  | jnull : Json
  | jbool : Bool → Json
  | jnum : List Char → Json
  | jstr : List Char → Json
  | jarr : List Json → Json
  | jobj : List (List Char × Json) → Json

/-- JSON's own whitespace (space, tab, line feed, carriage return). -/
def jsonWs (c : Char) : Bool :=
  c = ' ' || c = '\t' || c = '\n' || c = '\r'

/-- Hexadecimal digit value. -/
def hexVal (c : Char) : Option Nat :=
  if '0' ≤ c ∧ c ≤ '9' then some (c.toNat - '0'.toNat)
  else if 'a' ≤ c ∧ c ≤ 'f' then some (c.toNat - 'a'.toNat + 10)
  else if 'A' ≤ c ∧ c ≤ 'F' then some (c.toNat - 'A'.toNat + 10)
  else none

def isDigit (c : Char) : Bool := '0' ≤ c && c ≤ '9'

/-- Body of a JSON string after the opening quote: returns the decoded
content and the rest after the closing quote.  Control characters below
U+0020 are rejected; the standard escapes and `\uXXXX` are decoded. -/
def parseJsonStringBody : List Char → Option (List Char × List Char)
  | [] => none
  | '"' :: r => some ([], r)
  | '\\' :: e :: r =>
    match e with
    | '"' => (parseJsonStringBody r).map (fun (s, r') => ('"' :: s, r'))
    | '\\' => (parseJsonStringBody r).map (fun (s, r') => ('\\' :: s, r'))
    | '/' => (parseJsonStringBody r).map (fun (s, r') => ('/' :: s, r'))
    | 'b' => (parseJsonStringBody r).map (fun (s, r') => ('\x08' :: s, r'))
    | 'f' => (parseJsonStringBody r).map (fun (s, r') => ('\x0c' :: s, r'))
    | 'n' => (parseJsonStringBody r).map (fun (s, r') => ('\n' :: s, r'))
    | 'r' => (parseJsonStringBody r).map (fun (s, r') => ('\r' :: s, r'))
    | 't' => (parseJsonStringBody r).map (fun (s, r') => ('\t' :: s, r'))
    | 'u' =>
      match r with
      | h1 :: h2 :: h3 :: h4 :: r' =>
        match hexVal h1, hexVal h2, hexVal h3, hexVal h4 with
        | some a, some b, some c, some d =>
          (parseJsonStringBody r').map
            (fun (s, r'') => (Char.ofNat (((a * 16 + b) * 16 + c) * 16 + d) :: s, r''))
        | _, _, _, _ => none
      | _ => none
    | _ => none
  | c :: r =>
    if c.toNat < 0x20 then none
    else (parseJsonStringBody r).map (fun (s, r') => (c :: s, r'))

/-- Optional exponent of a JSON number: if the input starts with `e`/`E`
there must follow an optional sign and at least one digit, otherwise
the whole number is malformed (`none`). -/
def parseJsonExp (l : List Char) : Option (List Char × List Char) :=
  match l with
  | e :: r =>
    if e = 'e' ∨ e = 'E' then
      match r with
      | s :: r' =>
        if s = '+' ∨ s = '-' then
          if r'.takeWhile isDigit = [] then none
          else some (e :: s :: r'.takeWhile isDigit, r'.dropWhile isDigit)
        else
          if r.takeWhile isDigit = [] then none
          else some (e :: r.takeWhile isDigit, r.dropWhile isDigit)
      | [] => none
    else some ([], l)
  | [] => some ([], l)

/-- Optional fraction then optional exponent of a JSON number: a `.`
must be followed by at least one digit. -/
def parseJsonFracExp (l : List Char) : Option (List Char × List Char) :=
  match l with
  | '.' :: r =>
    if r.takeWhile isDigit = [] then none
    else
      match parseJsonExp (r.dropWhile isDigit) with
      | some (ep, rest) => some ('.' :: r.takeWhile isDigit ++ ep, rest)
      | none => none
  | _ => parseJsonExp l

/-- The unsigned part of a JSON number: `0` or a nonzero digit followed
by digits, then fraction/exponent. -/
def parseJsonIntTail (l : List Char) : Option (List Char × List Char) :=
  match l with
  | c :: r =>
    if c = '0' then
      match parseJsonFracExp r with
      | some (fe, rest) => some ('0' :: fe, rest)
      | none => none
    else if isDigit c then
      match parseJsonFracExp (r.dropWhile isDigit) with
      | some (fe, rest) => some (c :: r.takeWhile isDigit ++ fe, rest)
      | none => none
    else none
  | [] => none

/-- A JSON number lexeme: `-? (0 | [1-9][0-9]*) (\.[0-9]+)? ([eE][+-]?[0-9]+)?`.
Returns the lexeme and the rest. -/
def parseJsonNumber (l : List Char) : Option (List Char × List Char) :=
  match l with
  | '-' :: r =>
    match parseJsonIntTail r with
    | some (ds, rest) => some ('-' :: ds, rest)
    | none => none
  | _ => parseJsonIntTail l

mutual

/-- A JSON value (with leading whitespace skipped), fuelled; returns the
value and the unconsumed rest. -/
def parseJsonValue : Nat → List Char → Option (Json × List Char)
  | 0, _ => none
  | Nat.succ fuel, l0 =>
    match l0.dropWhile jsonWs with
    | 'n' :: 'u' :: 'l' :: 'l' :: r => some (Json.jnull, r)
    | 't' :: 'r' :: 'u' :: 'e' :: r => some (Json.jbool true, r)
    | 'f' :: 'a' :: 'l' :: 's' :: 'e' :: r => some (Json.jbool false, r)
    | '"' :: r =>
      match parseJsonStringBody r with
      | some (s, r') => some (Json.jstr s, r')
      | none => none
    | '[' :: r =>
      match r.dropWhile jsonWs with
      | ']' :: r2 => some (Json.jarr [], r2)
      | _ =>
        match parseJsonElems fuel r with
        | some (xs, r2) => some (Json.jarr xs, r2)
        | none => none
    | '{' :: r =>
      match r.dropWhile jsonWs with
      | '}' :: r2 => some (Json.jobj [], r2)
      | _ =>
        match parseJsonMembers fuel r with
        | some (fs, r2) => some (Json.jobj fs, r2)
        | none => none
    | l =>
      match parseJsonNumber l with
      | some (num, r) => some (Json.jnum num, r)
      | none => none

/-- Comma-separated array elements up to the closing bracket. -/
def parseJsonElems : Nat → List Char → Option (List Json × List Char)
  | 0, _ => none
  | Nat.succ fuel, l =>
    match parseJsonValue fuel l with
    | some (v, r) =>
      match r.dropWhile jsonWs with
      | ',' :: r2 =>
        match parseJsonElems fuel r2 with
        | some (xs, r3) => some (v :: xs, r3)
        | none => none
      | ']' :: r2 => some ([v], r2)
      | _ => none
    | none => none

/-- Comma-separated object members up to the closing brace. -/
def parseJsonMembers : Nat → List Char → Option (List (List Char × Json) × List Char)
  | 0, _ => none
  | Nat.succ fuel, l =>
    match l.dropWhile jsonWs with
    | '"' :: r =>
      match parseJsonStringBody r with
      | some (k, r1) =>
        match r1.dropWhile jsonWs with
        | ':' :: r2 =>
          match parseJsonValue fuel r2 with
          | some (v, r3) =>
            match r3.dropWhile jsonWs with
            | ',' :: r4 =>
              match parseJsonMembers fuel r4 with
              | some (fs, r5) => some ((k, v) :: fs, r5)
              | none => none
            | '}' :: r4 => some ([(k, v)], r4)
            | _ => none
          | none => none
        | _ => none
      | none => none
    | _ => none

end

/-- `JSON.parse`: parse one value with enough fuel, then require only
whitespace to remain; `none` models a thrown `SyntaxError`. -/
def jsonParse (l : List Char) : Option Json :=
  match parseJsonValue (l.length + 1) l with
  | some (v, r) => if r.dropWhile jsonWs = [] then some v else none
  | none => none

/-! ### The strict extraction pattern
`/\[\s*\{\s*"question"[\s\S]*\}\s*\]/` -/

/-- The literal `"question"` (with its quotes). -/
def questionLit : List Char :=
  ['"', 'q', 'u', 'e', 's', 't', 'i', 'o', 'n', '"']

/-- Match of the prefix `\[\s*\{\s*"question"` at the start of `l`,
returning the consumed characters and the rest. -/
def strictHead (l : List Char) : Option (List Char × List Char) :=
  match l with
  | '[' :: r =>
    match r.dropWhile isJsWs with
    | '{' :: r2 =>
      if questionLit.isPrefixOf (r2.dropWhile isJsWs) then
        some ('[' :: (r.takeWhile isJsWs ++ '{' :: (r2.takeWhile isJsWs ++ questionLit)),
          (r2.dropWhile isJsWs).drop questionLit.length)
      else none
    | _ => none
  | _ => none

/-- Greedy `[\s\S]*\}\s*\]`: take the longest prefix ending in `}`, then
whitespace, then `]` — i.e. the rightmost `}` that is followed (through
whitespace) by a `]`. -/
def tailSplit : List Char → Option (List Char × List Char)
  | [] => none
  | c :: rest =>
    match tailSplit rest with
    | some (m, r) => some (c :: m, r)
    | none =>
      if c = '}' then
        match rest.dropWhile isJsWs with
        | ']' :: r2 => some ('}' :: (rest.takeWhile isJsWs ++ [']']), r2)
        | _ => none
      else none

/-- `aiResponse.match(/\[\s*\{\s*"question"[\s\S]*\}\s*\]/)`: the
leftmost start position wins; at a given start the greedy tail takes the
rightmost closing `}…]`. -/
def strictSearch : List Char → Option (List Char)
  | [] => none
  | c :: rest =>
    match strictHead (c :: rest) with
    | some (pre, tail) =>
      match tailSplit tail with
      | some (mid, _) => some (pre ++ mid)
      | none => strictSearch rest
    | none => strictSearch rest

/-! ### The extraction chain of the `/api/practice` handler -/

/-- `aiResponse.indexOf('[')`. -/
def idxOfFirst (ch : Char) (l : List Char) : Option Nat := l.findIdx? (· = ch)

/-- `aiResponse.lastIndexOf(']')`. -/
def idxOfLast (ch : Char) (l : List Char) : Option Nat :=
  match l.reverse.findIdx? (· = ch) with
  | some k => some (l.length - 1 - k)
  | none => none

/-- `aiResponse.substring(startIdx, endIdx + 1)`. -/
def sliceIncl (i j : Nat) (l : List Char) : List Char := (l.drop i).take (j + 1 - i)

/-- The second extraction attempt (the inner `try` of the `catch`
block): slice from the first `[` to the last `]` and accept only a
parsed non-empty array; every other outcome falls through to the final
error response, which carries the raw response text. -/
def bracketFallback (text : List Char) : Except (List Char) (List Json) :=
  match idxOfFirst '[' text, idxOfLast ']' text with
  | some i, some j =>
    if i < j then
      match jsonParse (sliceIncl i j text) with
      | some (Json.jarr qs) =>
        if qs.length > 0 then Except.ok qs else Except.error text
      | _ => Except.error text
    else Except.error text
  | _, _ => Except.error text

/-- The practice-question extraction logic of the second
`POST /api/practice` handler (src/server/routes.ts lines 292-344):
match the strict pattern — if it is absent, fail at once; otherwise
`JSON.parse` the match — a parse **throw** (and only a throw) falls into
the `catch` block that runs the bracket-scan fallback; a parse that
yields an empty or non-array value fails directly.  Every failure
carries the raw response text (`rawResponse: aiResponse`). -/
def extractQuestions (text : List Char) : Except (List Char) (List Json) :=
  match strictSearch text with
  | none => Except.error text
  | some s =>
    match jsonParse s with
    | none => bracketFallback text
    | some (Json.jarr qs) =>
      if qs.length = 0 then Except.error text else Except.ok qs
    | some _ => Except.error text

/-! ### Helpers used only to state claims -/

/-- Whether `pat` occurs as a contiguous substring of `l`. -/
def hasSub (pat : List Char) : List Char → Bool
  | [] => pat.isEmpty
  | c :: r => pat.isPrefixOf (c :: r) || hasSub pat r

/-- Number of (possibly overlapping) occurrences of `pat` in `l`. -/
def subCount (pat : List Char) : List Char → Nat
  | [] => 0
  | c :: r => (if pat.isPrefixOf (c :: r) then 1 else 0) + subCount pat r

/-- Modelled from the spec: the recognised block-tag openers a top-level
segment may be wrapped in according to the spec (paragraph, list,
ordered list, division, heading, table); used only to state the claim
about `RenderableMarkup`. -/
def specRecognizedBlockTag (s : List Char) : Bool :=
  [['<','p'], ['<','u','l'], ['<','o','l'], ['<','d','i','v'], ['<','h'],
   ['<','t','a','b','l','e']].any (fun t => t.isPrefixOf (jsTrim s))

/-- Whether a parsed JSON value is an object with a member named `k`. -/
def jsonHasKey (k : List Char) : Json → Bool
  | Json.jobj fs => fs.any (fun f => f.1 = k)
  | _ => false

/-! ### Control-flow facts about the extraction chain -/

theorem bracketFallback_error_eq {t e : List Char}
    (h : bracketFallback t = Except.error e) : e = t := by
  unfold bracketFallback at h
  split at h
  · split at h
    · split at h
      · split at h
        · exact absurd h (by simp)
        · simpa using h.symm
      · simpa using h.symm
    · simpa using h.symm
  · simpa using h.symm

theorem bracketFallback_ok_ne_nil {t : List Char} {qs : List Json}
    (h : bracketFallback t = Except.ok qs) : qs ≠ [] := by
  unfold bracketFallback at h
  split at h
  · split at h
    · split at h
      · split at h
        · rename_i hlen
          cases h
          intro hq
          rw [hq] at hlen
          simp at hlen
        · exact absurd h (by simp)
      · exact absurd h (by simp)
    · exact absurd h (by simp)
  · exact absurd h (by simp)

theorem extractQuestions_error_eq {t e : List Char}
    (h : extractQuestions t = Except.error e) : e = t := by
  unfold extractQuestions at h
  split at h
  · simpa using h.symm
  · split at h
    · exact bracketFallback_error_eq h
    · split at h
      · simpa using h.symm
      · exact absurd h (by simp)
    · simpa using h.symm

theorem extractQuestions_ok_ne_nil {t : List Char} {qs : List Json}
    (h : extractQuestions t = Except.ok qs) : qs ≠ [] := by
  unfold extractQuestions at h
  split at h
  · exact absurd h (by simp)
  · split at h
    · exact bracketFallback_ok_ne_nil h
    · rename_i qs' _
      split at h
      · exact absurd h (by simp)
      · rename_i hlen
        cases h
        intro hq
        rw [hq] at hlen
        simp at hlen
    · exact absurd h (by simp)

theorem extractQuestions_no_candidate {t : List Char}
    (h : strictSearch t = none) : extractQuestions t = Except.error t := by
  unfold extractQuestions
  rw [h]

theorem extractQuestions_parse_throw {t s : List Char}
    (h1 : strictSearch t = some s) (h2 : jsonParse s = none) :
    extractQuestions t = bracketFallback t := by
  unfold extractQuestions
  rw [h1]
  simp only []
  rw [h2]

/-! ### Idempotence of the newline-collapsing step -/

theorem collapseNLAux_nil (n : Nat) :
    collapseNLAux n [] = List.replicate (min n 3) '\n' := rfl

theorem collapseNLAux_cons_nl (n : Nat) (rest : List Char) :
    collapseNLAux n ('\n' :: rest) = collapseNLAux (n + 1) rest := by
  simp [collapseNLAux]

theorem collapseNLAux_cons (n : Nat) {c : Char} (rest : List Char) (h : c ≠ '\n') :
    collapseNLAux n (c :: rest)
      = List.replicate (min n 3) '\n' ++ c :: collapseNLAux 0 rest := by
  simp [collapseNLAux, h]

theorem collapseNLAux_replicate (k : Nat) (m : Nat) (t : List Char) :
    collapseNLAux m (List.replicate k '\n' ++ t) = collapseNLAux (m + k) t := by
  induction k generalizing m with
  | zero => simp
  | succ k ih =>
    rw [List.replicate_succ, List.cons_append, collapseNLAux_cons_nl, ih]
    have h : m + 1 + k = m + (k + 1) := by omega
    rw [h]

theorem collapseNLAux_idem (l : List Char) :
    ∀ n, collapseNLAux 0 (collapseNLAux n l) = collapseNLAux n l := by
  induction l with
  | nil =>
    intro n
    rw [collapseNLAux_nil, ← List.append_nil (List.replicate (min n 3) '\n'),
      collapseNLAux_replicate, Nat.zero_add, collapseNLAux_nil]
    have h : min (min n 3) 3 = min n 3 := by omega
    rw [h, List.append_nil]
  | cons c rest ih =>
    intro n
    by_cases hc : c = '\n'
    · subst hc
      rw [collapseNLAux_cons_nl, ih (n + 1)]
    · rw [collapseNLAux_cons n rest hc, collapseNLAux_replicate, Nat.zero_add,
        collapseNLAux_cons (min n 3) (collapseNLAux 0 rest) hc, ih 0]
      have h : min (min n 3) 3 = min n 3 := by omega
      rw [h]

/-! ### The split/wrap/join round-trip -/

/-- No two consecutive newlines anywhere in the list. -/
def noNN : List Char → Bool
  | [] => true
  | c :: r => !(c = '\n' && r.head? == some '\n') && noNN r

/-- Shape invariant of the pieces produced by splitting on `"\n\n"`:
every piece is free of consecutive newlines and no piece except the
last ends in a newline. -/
def goodPieces : List (List Char) → Bool
  | [] => true
  | q :: qs => noNN q && (qs.isEmpty || !(q.getLast? == some '\n')) && goodPieces qs

theorem splitNN_ne_nil (l : List Char) : splitNN l ≠ [] := by
  induction l using splitNN.induct with
  | case1 => simp [splitNN]
  | case2 c => simp [splitNN]
  | case3 c1 c2 rest h ih => simp [splitNN, h]
  | case4 c1 c2 rest h s ss hs ih =>
    rw [splitNN, if_neg h, hs]
    simp
  | case5 c1 c2 rest h hs ih =>
    rw [splitNN, if_neg h, hs]
    simp

theorem splitNN_head (l : List Char) :
    ∀ s ss, splitNN l = s :: ss → s = [] ∨ s.head? = l.head? := by
  induction l using splitNN.induct with
  | case1 =>
    intro s ss h
    rw [splitNN] at h
    cases h
    exact Or.inl rfl
  | case2 c =>
    intro s ss h
    rw [splitNN] at h
    cases h
    exact Or.inr rfl
  | case3 c1 c2 rest h ih =>
    intro s ss hs
    rw [splitNN, if_pos h] at hs
    cases hs
    exact Or.inl rfl
  | case4 c1 c2 rest h s0 ss0 hs0 ih =>
    intro s ss hs
    rw [splitNN, if_neg h, hs0] at hs
    cases hs
    exact Or.inr rfl
  | case5 c1 c2 rest h hs0 ih =>
    exact absurd hs0 (splitNN_ne_nil _)

theorem splitNN_first_empty (x : Char) (l : List Char) {ss : List (List Char)}
    (h : splitNN (x :: l) = [] :: ss) : x = '\n' := by
  cases l with
  | nil =>
    rw [splitNN] at h
    cases h
  | cons c2 rest =>
    by_cases hc : x = '\n' ∧ c2 = '\n'
    · exact hc.1
    · rw [splitNN, if_neg hc] at h
      rcases hs : splitNN (c2 :: rest) with _ | ⟨s0, ss0⟩
      · exact absurd hs (splitNN_ne_nil _)
      · rw [hs] at h
        cases h

theorem pieces_good (l : List Char) : goodPieces (splitNN l) = true := by
  induction l using splitNN.induct with
  | case1 => simp [splitNN, goodPieces, noNN]
  | case2 c => simp [splitNN, goodPieces, noNN]
  | case3 c1 c2 rest h ih =>
    rw [splitNN, if_pos h]
    simp [goodPieces, noNN, ih]
  | case4 c1 c2 rest h s ss hs ih =>
    rw [splitNN, if_neg h, hs]
    rw [hs] at ih
    simp only [goodPieces, Bool.and_eq_true] at ih ⊢
    obtain ⟨⟨hn, hcond⟩, hrest⟩ := ih
    refine ⟨⟨?_, ?_⟩, hrest⟩
    · -- noNN (c1 :: s)
      simp only [noNN, Bool.and_eq_true, Bool.not_eq_true']
      refine ⟨?_, hn⟩
      by_cases hc1 : c1 = '\n'
      · subst hc1
        have hc2 : c2 ≠ '\n' := fun hq => h ⟨rfl, hq⟩
        rcases splitNN_head _ _ _ hs with he | hh
        · subst he; simp
        · simp only [List.head?_cons] at hh
          simp [hh, hc2]
      · simp [hc1]
    · -- last-piece condition
      by_cases hss : ss.isEmpty = true
      · simp [hss]
      · simp only [hss, Bool.false_or] at hcond ⊢
        rcases s with _ | ⟨b, bs⟩
        · have hc2 : c2 = '\n' := splitNN_first_empty _ _ hs
          have hc1 : c1 ≠ '\n' := fun hq => h ⟨hq, hc2⟩
          simpa using hc1
        · rw [List.getLast?_cons_cons]
          exact hcond
  | case5 c1 c2 rest h hs ih =>
    exact absurd hs (splitNN_ne_nil _)

theorem noNN_tail {c : Char} {r : List Char} (h : noNN (c :: r) = true) :
    noNN r = true := by
  simp only [noNN, Bool.and_eq_true] at h
  exact h.2

theorem noNN_head2 {c d : Char} {r : List Char} (h : noNN (c :: d :: r) = true) :
    ¬(c = '\n' ∧ d = '\n') := by
  intro ⟨h1, h2⟩
  subst h1; subst h2
  simp [noNN] at h

theorem goodPieces_parts {q : List Char} {qs : List (List Char)}
    (h : goodPieces (q :: qs) = true) :
    noNN q = true ∧ (qs.isEmpty || !(q.getLast? == some '\n')) = true
      ∧ goodPieces qs = true := by
  simp only [goodPieces, Bool.and_eq_true] at h
  exact ⟨h.1.1, h.1.2, h.2⟩

theorem splitNN_of_noNN (q : List Char) (hq : noNN q = true) : splitNN q = [q] := by
  induction q using splitNN.induct with
  | case1 => rw [splitNN]
  | case2 c => rw [splitNN]
  | case3 c1 c2 rest h ih =>
    obtain ⟨h1, h2⟩ := h
    subst h1; subst h2
    simp [noNN] at hq
  | case4 c1 c2 rest h s ss hs ih =>
    have hq2 : noNN (c2 :: rest) = true := noNN_tail hq
    rw [splitNN, if_neg h, hs]
    rw [ih hq2] at hs
    cases hs
    rfl
  | case5 c1 c2 rest h hs ih =>
    exact absurd hs (splitNN_ne_nil _)

theorem splitNN_append_sep (q r : List Char) (h1 : noNN q = true)
    (h2 : q.getLast? ≠ some '\n') :
    splitNN (q ++ '\n' :: '\n' :: r) = q :: splitNN r := by
  induction q with
  | nil => rw [List.nil_append, splitNN, if_pos ⟨rfl, rfl⟩]
  | cons c q' ih =>
    cases q' with
    | nil =>
      have hc : c ≠ '\n' := by simpa using h2
      rw [List.cons_append, List.nil_append, splitNN,
        if_neg (by intro hx; exact hc hx.1), splitNN, if_pos ⟨rfl, rfl⟩]
    | cons d q'' =>
      have hnd : noNN (d :: q'') = true := noNN_tail h1
      have hcd : ¬(c = '\n' ∧ d = '\n') := noNN_head2 h1
      have hlast : (d :: q'').getLast? ≠ some '\n' := by
        rwa [List.getLast?_cons_cons] at h2
      have hrec := ih hnd hlast
      rw [List.cons_append] at hrec
      rw [List.cons_append, List.cons_append, splitNN, if_neg hcd, hrec]

theorem resplit (qs : List (List Char)) (h0 : qs ≠ [])
    (h : goodPieces qs = true) : splitNN (joinNN qs) = qs := by
  induction qs with
  | nil => exact absurd rfl h0
  | cons q qs' ih =>
    obtain ⟨hn, hcond, hrest⟩ := goodPieces_parts h
    cases qs' with
    | nil =>
      have hj : joinNN [q] = q := by simp [joinNN]
      rw [hj]
      exact splitNN_of_noNN q hn
    | cons q2 qs'' =>
      have hj : joinNN (q :: q2 :: qs'')
          = q ++ '\n' :: '\n' :: joinNN (q2 :: qs'') := by
        simp [joinNN]
      have hlast : q.getLast? ≠ some '\n' := by
        simpa using hcond
      rw [hj, splitNN_append_sep q _ hn hlast, ih (by simp) hrest]

theorem brRepl_no_nl (p : List Char) : '\n' ∉ brRepl p := by
  induction p with
  | nil => simp [brRepl]
  | cons c rest ih =>
    rw [brRepl]
    intro hmem
    rcases List.mem_append.mp hmem with hl | hr
    · by_cases hc : c = '\n'
      · rw [if_pos hc] at hl
        simp at hl
      · rw [if_neg hc] at hl
        simp only [List.mem_singleton] at hl
        exact hc hl.symm
    · exact ih hr

theorem noNN_of_no_nl {l : List Char} (h : '\n' ∉ l) : noNN l = true := by
  induction l with
  | nil => rfl
  | cons c rest ih =>
    simp only [List.mem_cons, not_or] at h
    simp only [noNN, Bool.and_eq_true]
    refine ⟨?_, ih h.2⟩
    simp [Ne.symm h.1]

theorem getLast?_ne_of_no_nl {l : List Char} (h : '\n' ∉ l) :
    l.getLast? ≠ some '\n' := by
  intro hq
  obtain ⟨hne, hx⟩ := List.mem_getLast?_eq_getLast (x := '\n') (by rw [Option.mem_def, hq])
  exact h (hx ▸ List.getLast_mem hne)

/-- The wrapped form produced by both paragraph wrappers. -/
theorem wrapped_no_nl (p : List Char) :
    '\n' ∉ '<' :: 'p' :: '>' :: (brRepl p ++ ['<', '/', 'p', '>']) := by
  intro hmem
  simp only [List.mem_cons, List.mem_append] at hmem
  rcases hmem with h | h | h | h
  · exact absurd h (by decide)
  · exact absurd h (by decide)
  · exact absurd h (by decide)
  · rcases h with h | h
    · exact brRepl_no_nl p h
    · exact absurd h (by decide)

theorem wrapSeg_eq_or_no_nl (p : List Char) : wrapSeg p = p ∨ '\n' ∉ wrapSeg p := by
  rw [wrapSeg]
  split
  · exact Or.inl rfl
  · exact Or.inr (wrapped_no_nl p)

theorem wrapSeg2_eq_or_no_nl (p : List Char) : wrapSeg2 p = p ∨ '\n' ∉ wrapSeg2 p := by
  rw [wrapSeg2]
  split
  · exact Or.inl rfl
  · exact Or.inr (wrapped_no_nl p)

theorem goodPieces_map (f : List Char → List Char)
    (hf : ∀ p, f p = p ∨ '\n' ∉ f p) :
    ∀ qs, goodPieces qs = true → goodPieces (qs.map f) = true := by
  intro qs
  induction qs with
  | nil => intro; rfl
  | cons q qs' ih =>
    intro h
    obtain ⟨hn, hcond, hrest⟩ := goodPieces_parts h
    rw [List.map_cons]
    simp only [goodPieces, Bool.and_eq_true]
    refine ⟨⟨?_, ?_⟩, ih hrest⟩
    · rcases hf q with he | hm
      · rw [he]; exact hn
      · exact noNN_of_no_nl hm
    · by_cases hqs : qs' = []
      · subst hqs
        simp
      · have hne : qs'.map f ≠ [] := by
          simpa using hqs
        have hlast : q.getLast? ≠ some '\n' := by
          have : qs'.isEmpty = false := by
            simpa using hqs
          rw [this] at hcond
          simpa using hcond
        rcases hf q with he | hm
        · rw [he]
          simp only [Bool.or_eq_true]
          right
          simpa using hlast
        · simp only [Bool.or_eq_true]
          right
          simpa using getLast?_ne_of_no_nl hm

theorem jsTrim_of_ends {l : List Char} {a b : Char} (h1 : l.head? = some a)
    (ha : isJsWs a = false) (h2 : l.getLast? = some b) (hb : isJsWs b = false) :
    jsTrim l = l := by
  unfold jsTrim
  cases l with
  | nil => cases h1
  | cons c rest =>
    have hca : c = a := by simpa using h1
    rw [List.dropWhile_cons_of_neg (by rw [hca]; simp [ha])]
    rcases hr : (c :: rest).reverse with _ | ⟨d, ds⟩
    · exact absurd (congrArg List.length hr) (by simp)
    · have hd : d = b := by
        have hh := List.head?_reverse (c :: rest)
        rw [hr, h2] at hh
        simpa using hh
      rw [List.dropWhile_cons_of_neg (by rw [hd]; simp [hb]), ← hr,
        List.reverse_reverse]

theorem wrapped_trim_head (p : List Char) :
    (jsTrim ('<' :: 'p' :: '>' :: (brRepl p ++ ['<', '/', 'p', '>']))).head? = some '<' := by
  have hlast : ('<' :: 'p' :: '>' :: (brRepl p ++ ['<', '/', 'p', '>'])).getLast?
      = some '>' := by
    show (('<' :: 'p' :: '>' :: brRepl p) ++ ['<', '/', 'p', '>']).getLast? = some '>'
    rw [List.getLast?_append]
    rfl
  rw [jsTrim_of_ends (List.head?_cons) (by decide) hlast (by decide)]
  rfl

theorem wrapSeg_idem (p : List Char) : wrapSeg (wrapSeg p) = wrapSeg p := by
  by_cases h : (jsTrim p).head? = some '<'
  · have h1 : wrapSeg p = p := by rw [wrapSeg, if_pos h]
    rw [h1]
    exact h1
  · have h1 : wrapSeg p = '<' :: 'p' :: '>' :: (brRepl p ++ ['<', '/', 'p', '>']) := by
      rw [wrapSeg, if_neg h]
    rw [h1, wrapSeg, if_pos (wrapped_trim_head p)]

theorem wrapParagraphs_goodPieces (l : List Char) :
    goodPieces ((splitNN l).map wrapSeg) = true :=
  goodPieces_map wrapSeg wrapSeg_eq_or_no_nl _ (pieces_good l)

theorem splitNN_wrapParagraphs (l : List Char) :
    splitNN (wrapParagraphs l) = (splitNN l).map wrapSeg := by
  unfold wrapParagraphs
  exact resplit _ (by simp [splitNN_ne_nil l]) (wrapParagraphs_goodPieces l)

theorem wrapParagraphs_idem (l : List Char) :
    wrapParagraphs (wrapParagraphs l) = wrapParagraphs l := by
  conv_lhs => rw [wrapParagraphs, splitNN_wrapParagraphs, List.map_map]
  rw [wrapParagraphs]
  congr 1
  exact List.map_congr_left fun p _ => wrapSeg_idem p

theorem splitNN_wrapParagraphs2 (l : List Char) :
    splitNN (wrapParagraphs2 l) = (splitNN l).map wrapSeg2 := by
  unfold wrapParagraphs2
  exact resplit _ (by simp [splitNN_ne_nil l])
    (goodPieces_map wrapSeg2 wrapSeg2_eq_or_no_nl _ (pieces_good l))

/-! ### Behaviour of the dollar rewrites on simple spans -/

theorem dIA_out_dollar (rest : List Char) :
    dollarInlineAux false [] ('$' :: rest) = dollarInlineAux true [] rest := by
  simp [dollarInlineAux]

theorem dIA_out_other {c : Char} (rest : List Char) (hc : c ≠ '$') :
    dollarInlineAux false [] (c :: rest) = c :: dollarInlineAux false [] rest := by
  simp [dollarInlineAux, hc]

theorem dIA_in_close {acc : List Char} (rest : List Char) (hacc : acc ≠ []) :
    dollarInlineAux true acc ('$' :: rest)
      = '\\' :: '(' :: (acc.reverse ++ '\\' :: ')' :: dollarInlineAux false [] rest) := by
  simp [dollarInlineAux, hacc]

theorem dIA_in_other {c : Char} (acc rest : List Char) (hc : c ≠ '$') :
    dollarInlineAux true acc (c :: rest) = dollarInlineAux true (c :: acc) rest := by
  simp [dollarInlineAux, hc]

theorem dollarInlineAux_acc {c : List Char} (hc : '$' ∉ c) :
    ∀ (acc r : List Char),
      dollarInlineAux true acc (c ++ r)
        = dollarInlineAux true (c.reverse ++ acc) r := by
  induction c with
  | nil => intro acc r; simp
  | cons x c' ih =>
    intro acc r
    simp only [List.mem_cons, not_or] at hc
    rw [List.cons_append, dIA_in_other _ _ (Ne.symm hc.1), ih hc.2]
    simp

theorem dollarInlineAux_id {r : List Char} (hr : '$' ∉ r) :
    dollarInlineAux false [] r = r := by
  induction r with
  | nil => rfl
  | cons x r' ih =>
    simp only [List.mem_cons, not_or] at hr
    rw [dIA_out_other _ (Ne.symm hr.1), ih hr.2]

/-- No two consecutive dollar signs anywhere in the list. -/
def noDD : List Char → Bool
  | [] => true
  | c :: r => !(c = '$' && r.head? == some '$') && noDD r

theorem noDD_cons {a : Char} {l : List Char}
    (h1 : ¬(a = '$' ∧ l.head? = some '$')) (h2 : noDD l = true) :
    noDD (a :: l) = true := by
  simp only [noDD, Bool.and_eq_true, Bool.not_eq_true', Bool.and_eq_false_iff]
  refine ⟨?_, h2⟩
  by_cases ha : a = '$'
  · have : l.head? ≠ some '$' := fun hq => h1 ⟨ha, hq⟩
    simp [this]
  · simp [ha]

theorem noDD_of_no_dollar {l : List Char} (h : '$' ∉ l) : noDD l = true := by
  induction l with
  | nil => rfl
  | cons c rest ih =>
    simp only [List.mem_cons, not_or] at h
    exact noDD_cons (fun hq => h.1 hq.1.symm) (ih h.2)

theorem noDD_append_dollar {x : List Char} (h : '$' ∉ x) :
    noDD (x ++ ['$']) = true := by
  induction x with
  | nil => rfl
  | cons c rest ih =>
    simp only [List.mem_cons, not_or] at h
    rw [List.cons_append]
    refine noDD_cons ?_ (ih h.2)
    intro hq
    exact h.1 hq.1.symm

theorem dollarBlockAux_id {l : List Char} (h : noDD l = true) :
    dollarBlockAux 0 [] l = l
      ∧ (l.head? ≠ some '$' → dollarBlockAux 1 [] l = '$' :: l) := by
  induction l with
  | nil => exact ⟨rfl, fun _ => rfl⟩
  | cons c rest ih =>
    simp only [noDD, Bool.and_eq_true, Bool.not_eq_true', Bool.and_eq_false_iff] at h
    obtain ⟨hpair, hrest⟩ := h
    obtain ⟨ih0, ih1⟩ := ih hrest
    constructor
    · by_cases hc : c = '$'
      · subst hc
        have hhd : rest.head? ≠ some '$' := by
          rcases hpair with hp | hp
          · simp at hp
          · simpa using hp
        show dollarBlockAux 1 [] rest = '$' :: rest
        exact ih1 hhd
      · show (if c = '$' then dollarBlockAux 1 [] rest
            else c :: dollarBlockAux 0 [] rest) = c :: rest
        rw [if_neg hc, ih0]
    · intro hhd
      have hc : c ≠ '$' := by simpa using hhd
      show (if c = '$' then dollarBlockAux 2 [] rest
          else '$' :: c :: dollarBlockAux 0 [] rest) = '$' :: c :: rest
      rw [if_neg hc, ih0]

theorem dIA_in_dollar_empty (rest : List Char) :
    dollarInlineAux true [] ('$' :: rest) = '$' :: dollarInlineAux true [] rest := by
  simp [dollarInlineAux]

theorem dollarInline_span {c r : List Char} (hne : c ≠ []) (hc : '$' ∉ c)
    (hr : '$' ∉ r) :
    dollarInline ('$' :: (c ++ '$' :: r)) = '\\' :: '(' :: (c ++ '\\' :: ')' :: r) := by
  unfold dollarInline
  rw [dIA_out_dollar, dollarInlineAux_acc hc, List.append_nil,
    dIA_in_close _ (by simpa using hne), List.reverse_reverse, dollarInlineAux_id hr]

theorem dollarInline_block_span {c : List Char} (hne : c ≠ []) (hc : '$' ∉ c) :
    dollarInline ('$' :: '$' :: (c ++ ['$', '$']))
      = '$' :: '\\' :: '(' :: (c ++ ['\\', ')', '$']) := by
  unfold dollarInline
  have h1 : (['$', '$'] : List Char) = '$' :: '$' :: [] := rfl
  rw [dIA_out_dollar, dIA_in_dollar_empty, h1, dollarInlineAux_acc hc,
    List.append_nil, dIA_in_close _ (by simpa using hne), List.reverse_reverse]
  rfl

theorem dollarBlock_id_of_noDD {l : List Char} (h : noDD l = true) :
    dollarBlock l = l := (dollarBlockAux_id h).1

theorem dollar_stage_inline_span {c r : List Char} (hne : c ≠ []) (hc : '$' ∉ c)
    (hr : '$' ∉ r) :
    dollarBlock (dollarInline ('$' :: (c ++ '$' :: r)))
      = '\\' :: '(' :: (c ++ '\\' :: ')' :: r) := by
  rw [dollarInline_span hne hc hr]
  refine dollarBlock_id_of_noDD (noDD_of_no_dollar ?_)
  intro hmem
  simp only [List.mem_cons, List.mem_append] at hmem
  rcases hmem with h | h | h
  · exact absurd h (by decide)
  · exact absurd h (by decide)
  · rcases h with h | h
    · exact hc h
    · rcases h with h | h | h
      · exact absurd h (by decide)
      · exact absurd h (by decide)
      · exact hr h

theorem dollar_stage_block_span {c : List Char} (hne : c ≠ []) (hc : '$' ∉ c) :
    dollarBlock (dollarInline ('$' :: '$' :: (c ++ ['$', '$'])))
      = '$' :: '\\' :: '(' :: (c ++ ['\\', ')', '$']) := by
  rw [dollarInline_block_span hne hc]
  refine dollarBlock_id_of_noDD ?_
  have hx : '$' ∉ c ++ ['\\', ')'] := by
    intro hmem
    rcases List.mem_append.mp hmem with h | h
    · exact hc h
    · exact absurd h (by decide)
  have hinner : noDD ((c ++ ['\\', ')']) ++ ['$']) = true := noDD_append_dollar hx
  have hassoc : (c ++ ['\\', ')']) ++ ['$'] = c ++ ['\\', ')', '$'] := by
    simp
  rw [hassoc] at hinner
  refine noDD_cons ?_ (noDD_cons ?_ (noDD_cons ?_ hinner))
  · intro hq
    rcases hq with ⟨_, hq2⟩
    simp only [List.head?_cons, Option.some_inj] at hq2
    exact absurd hq2 (by decide)
  · intro hq
    rcases hq with ⟨hq1, _⟩
    exact absurd hq1 (by decide)
  · intro hq
    rcases hq with ⟨hq1, _⟩
    exact absurd hq1 (by decide)

/-! ## The claims -/

/-- C1 counterexample: on the input `"[1, 2]"` the strict pattern finds
no candidate and `extractQuestions` returns the `Unparseable` error at
once, even though the bracket-scan fallback alone would succeed with the
non-empty array `[1, 2]` — so the fallback is *not* attempted when the
strict search merely finds no candidate, contrary to the claim. -/
theorem C1_counterexample :
    extractQuestions ("[1, 2]".toList) = Except.error ("[1, 2]".toList)
      ∧ bracketFallback ("[1, 2]".toList)
          = Except.ok [Json.jnum ['1'], Json.jnum ['2']] :=
  ⟨rfl, rfl⟩

/-- C1 (amended): the bracket-scan fallback is attempted only when the
strict candidate's `JSON.parse` throws; when the strict pattern finds no
candidate the `Unparseable` error is returned immediately, without the
fallback. -/
theorem C1_fallback_flow :
    (∀ t : List Char, strictSearch t = none →
      extractQuestions t = Except.error t)
      ∧ (∀ t s : List Char, strictSearch t = some s → jsonParse s = none →
          extractQuestions t = bracketFallback t) :=
  ⟨fun _ h => extractQuestions_no_candidate h,
   fun _ _ h1 h2 => extractQuestions_parse_throw h1 h2⟩

/-- C1 witness: the no-candidate branch at the concrete input `"abc"`. -/
theorem C1_fallback_flow_witness :
    extractQuestions ("abc".toList) = Except.error ("abc".toList) :=
  C1_fallback_flow.1 ("abc".toList) rfl

/-- C2 counterexample: the normalizer rewrites `$$x$$` to `$\(x\)$`, not
to the block form `\[x\]` — the inline rule runs first and consumes the
inner `$x$`, so no `\[x\]` appears anywhere in the output. -/
theorem C2_counterexample :
    normalizeText ("$$x$$".toList) = "$\\(x\\)$".toList
      ∧ hasSub ("\\[x\\]".toList) (normalizeText ("$$x$$".toList)) = false :=
  ⟨rfl, rfl⟩

/-- C2 (amended): a single-dollar span `$c$` (with `c` nonempty and
`$`-free, and nothing else dollar-related around it) is rewritten to the
inline form `\(c\)`; but because the inline rule is applied first, a
double-dollar span `$$c$$` has its inner `$c$` consumed by the inline
rule, producing `$\(c\)$` — the block rule never sees it and no block
form is produced for such spans. -/
theorem C2_dollar_rewrites :
    (∀ c r : List Char, c ≠ [] → '$' ∉ c → '$' ∉ r →
      dollarBlock (dollarInline ('$' :: (c ++ '$' :: r)))
        = '\\' :: '(' :: (c ++ '\\' :: ')' :: r))
      ∧ (∀ c : List Char, c ≠ [] → '$' ∉ c →
          dollarBlock (dollarInline ('$' :: '$' :: (c ++ ['$', '$'])))
            = '$' :: '\\' :: '(' :: (c ++ ['\\', ')', '$'])) :=
  ⟨fun _ _ hne hc hr => dollar_stage_inline_span hne hc hr,
   fun _ hne hc => dollar_stage_block_span hne hc⟩

/-- C2 witness: both parts at the concrete body `"x"`. -/
theorem C2_dollar_rewrites_witness :
    dollarBlock (dollarInline ("$x$".toList)) = "\\(x\\)".toList
      ∧ dollarBlock (dollarInline ("$$x$$".toList)) = "$\\(x\\)$".toList :=
  ⟨C2_dollar_rewrites.1 ['x'] [] (by decide) (by decide) (by decide),
   C2_dollar_rewrites.2 ['x'] (by decide) (by decide)⟩

/-- C3 counterexample: the normalizer is not idempotent — on `"sin"` the
first pass produces `\(sin\)` and the second pass wraps the vocabulary
word again, producing `\(\(sin\)\)`. -/
theorem C3_counterexample :
    normalizeText ("sin".toList) = "\\(sin\\)".toList
      ∧ normalizeText (normalizeText ("sin".toList)) = "\\(\\(sin\\)\\)".toList
      ∧ normalizeText (normalizeText ("sin".toList)) ≠ normalizeText ("sin".toList) :=
  ⟨rfl, rfl, by decide⟩

/-- C3 (amended): the newline-collapsing step of the normalizer is
idempotent — `collapseNL (collapseNL x) = collapseNL x` for every input —
but the full normalizer is not, because the math-vocabulary wrapping
re-wraps words that its own output still contains. -/
theorem C3_collapse_idempotent :
    ∀ l : List Char, collapseNL (collapseNL l) = collapseNL l :=
  fun l => collapseNLAux_idem l 0

/-- C4 counterexample: the part_000 paragraph wrapper is not idempotent —
its block-prefix set (`<ul`, `<ol`, `<div`, `<h`, `<table`) omits the
paragraph tag, so an already-wrapped `<p>a</p>` is wrapped again. -/
theorem C4_counterexample :
    wrapParagraphs2 ("a".toList) = "<p>a</p>".toList
      ∧ wrapParagraphs2 (wrapParagraphs2 ("a".toList)) = "<p><p>a</p></p>".toList
      ∧ wrapParagraphs2 (wrapParagraphs2 ("a".toList)) ≠ wrapParagraphs2 ("a".toList) :=
  ⟨rfl, rfl, by decide⟩

/-- C4 (amended): the ai.ts paragraph wrapper — which passes a segment
through whenever its trimmed form starts with `<` — is idempotent on
every input; the part_000 variant is not (see the counterexample). -/
theorem C4_wrap_idempotent :
    ∀ l : List Char, wrapParagraphs (wrapParagraphs l) = wrapParagraphs l :=
  wrapParagraphs_idem

/-- C5 counterexample: the extraction performs no per-record validation —
on `[{"question":"a"},{"nope":1}]` it succeeds although the second
record has no `question` member at all. -/
theorem C5_counterexample :
    extractQuestions ("[\x7b\"question\":\"a\"\x7d,\x7b\"nope\":1\x7d]".toList)
        = Except.ok [Json.jobj [("question".toList, Json.jstr ['a'])],
            Json.jobj [("nope".toList, Json.jnum ['1'])]]
      ∧ jsonHasKey ("question".toList)
          (Json.jobj [("nope".toList, Json.jnum ['1'])]) = false :=
  ⟨rfl, rfl⟩

/-- C5 (amended): a successful extraction always yields a non-empty
sequence of parsed JSON values (the only shape check the code makes),
and the concrete example extracts the single question/answer record; the
code does not check that each record has its `question` field populated. -/
theorem C5_success_shape :
    extractQuestions
        ("Here are your questions:\n[\x7b\"question\":\"2+2=?\",\"answer\":\"4\"\x7d]\nEnjoy!".toList)
        = Except.ok [Json.jobj [("question".toList, Json.jstr "2+2=?".toList),
            ("answer".toList, Json.jstr ['4'])]]
      ∧ (∀ (t : List Char) (qs : List Json),
          extractQuestions t = Except.ok qs → qs ≠ []) :=
  ⟨rfl, fun _ _ h => extractQuestions_ok_ne_nil h⟩

/-- C5 witness: non-emptiness discharged at the concrete example input. -/
theorem C5_success_shape_witness :
    ([Json.jobj [("question".toList, Json.jstr "2+2=?".toList),
        ("answer".toList, Json.jstr ['4'])]] : List Json) ≠ [] :=
  C5_success_shape.2
    ("Here are your questions:\n[\x7b\"question\":\"2+2=?\",\"answer\":\"4\"\x7d]\nEnjoy!".toList)
    _ rfl

/-- C6 counterexample: two bullet runs separated by a blank line are two
distinct maximal contiguous runs, but the detector merges them into a
single list block — the pattern's `\s*` crosses the blank line — so it
does not emit one list block per maximal run. -/
theorem C6_counterexample :
    convertLists ("* a\n\n* b".toList) = "<ul><li>a</li><li>b</li></ul>".toList
      ∧ subCount ("<ul".toList) (convertLists ("* a\n\n* b".toList)) = 1 :=
  ⟨rfl, rfl⟩

/-- C6 (amended): bullet runs become a single list block with one item
per bullet line, the marker and surrounding whitespace stripped and the
content preserved; a run of length 1 still becomes a one-item list; and
non-bullet text is left unchanged — but runs separated only by blank
lines are merged into one block rather than one block per maximal run. -/
theorem C6_list_conversion :
    convertLists ("* a\n* b\n* c".toList)
        = "<ul><li>a</li><li>b</li><li>c</li></ul>".toList
      ∧ convertLists ("* a".toList) = "<ul><li>a</li></ul>".toList
      ∧ convertLists ("  - item".toList) = "<ul><li>item</li></ul>".toList
      ∧ convertLists ("hello\nworld".toList) = "hello\nworld".toList :=
  ⟨rfl, rfl, rfl, rfl⟩

/-- C7: rendering `"line1\n\n\n\n\nline2"` first collapses the five-newline
run to exactly three newlines, and the final output consists of exactly
two paragraph blocks, one containing `line1` and one containing `line2`
(the second with a `<br>` for the surviving single newline). -/
theorem C7_render_collapse :
    collapseNL ("line1\n\n\n\n\nline2".toList) = "line1\n\n\nline2".toList
      ∧ processResponse ("line1\n\n\n\n\nline2".toList)
          = "<p>line1</p>\n\n<p><br>line2</p>".toList
      ∧ splitNN (processResponse ("line1\n\n\n\n\nline2".toList))
          = ["<p>line1</p>".toList, "<p><br>line2</p>".toList] :=
  ⟨rfl, rfl, rfl⟩

/-- C8: whenever `extractQuestions` fails it fails with the single
`Unparseable` error kind, and the error always carries the original raw
input text unchanged; in particular `"no json here"` fails and the error
preserves that exact string. -/
theorem C8_error_carries_text :
    (∀ t e : List Char, extractQuestions t = Except.error e → e = t)
      ∧ extractQuestions ("no json here".toList)
          = Except.error ("no json here".toList) :=
  ⟨fun _ _ h => extractQuestions_error_eq h, rfl⟩

/-- C8 witness: the error-payload identity discharged at `"no json here"`. -/
theorem C8_error_carries_text_witness :
    ("no json here".toList : List Char) = "no json here".toList :=
  C8_error_carries_text.1 ("no json here".toList) ("no json here".toList) rfl

/-- C9 counterexample: the ai.ts pipeline passes through any segment whose
trimmed form starts with `<`; on input `<em>hi` the sole top-level output
segment is `<em>hi`, which begins with none of the recognised block tags
(paragraph, list, ordered list, division, heading, table). -/
theorem C9_counterexample :
    splitNN (processResponse ("<em>hi".toList)) = ["<em>hi".toList]
      ∧ specRecognizedBlockTag ("<em>hi".toList) = false :=
  ⟨rfl, rfl⟩

/-- C9 (amended): every top-level segment of the ai.ts pipeline output is
either wrapped in a paragraph tag or passed through because its trimmed
form begins with `<` — which may be any tag, not only a block-level one;
in the part_000 pipeline every segment is either a paragraph or begins
(after trimming) with one of the five block prefixes
`<ul`/`<ol`/`<div`/`<h`/`<table`. -/
theorem C9_segment_shape :
    (∀ l s : List Char, s ∈ splitNN (processResponse l) →
      (∃ p, s = '<' :: 'p' :: '>' :: (brRepl p ++ ['<', '/', 'p', '>']))
        ∨ (jsTrim s).head? = some '<')
      ∧ (∀ l s : List Char, s ∈ splitNN (processResponse2 l) →
          (∃ p, s = '<' :: 'p' :: '>' :: (brRepl p ++ ['<', '/', 'p', '>']))
            ∨ blockTags.any (fun t => t.isPrefixOf (jsTrim s)) = true) := by
  constructor
  · intro l s hs
    rw [processResponse, splitNN_wrapParagraphs] at hs
    obtain ⟨p, _, hfp⟩ := List.mem_map.mp hs
    by_cases hchk : (jsTrim p).head? = some '<'
    · right
      have hsp : s = p := by rw [← hfp, wrapSeg, if_pos hchk]
      rw [hsp]
      exact hchk
    · left
      exact ⟨p, by rw [← hfp, wrapSeg, if_neg hchk]⟩
  · intro l s hs
    rw [processResponse2, splitNN_wrapParagraphs2] at hs
    obtain ⟨p, _, hfp⟩ := List.mem_map.mp hs
    by_cases hchk : blockTags.any (fun t => t.isPrefixOf (jsTrim p)) = true
    · right
      have hsp : s = p := by rw [← hfp, wrapSeg2, if_pos hchk]
      rw [hsp]
      exact hchk
    · left
      exact ⟨p, by rw [← hfp, wrapSeg2, if_neg hchk]⟩

/-- C9 witness: the paragraph branch at the concrete input `"hi"`. -/
theorem C9_segment_shape_witness :
    (∃ p, ("<p>hi</p>".toList : List Char)
        = '<' :: 'p' :: '>' :: (brRepl p ++ ['<', '/', 'p', '>']))
      ∨ (jsTrim ("<p>hi</p>".toList)).head? = some '<' :=
  C9_segment_shape.1 ("hi".toList) ("<p>hi</p>".toList) (by decide)

/-- C10: applying the full response pipeline to the empty string yields
the single empty paragraph block `<p></p>`, not the empty string, in
both the ai.ts and the part_000 variant. -/
theorem C10_empty_input :
    processResponse ("".toList) = "<p></p>".toList
      ∧ processResponse2 ("".toList) = "<p></p>".toList :=
  ⟨rfl, rfl⟩
